import Mathlib

/-!
# PNGme chunk codec: a shallow embedding

A verification development for the three-layer PNG-style chunk codec of this
repository: the 4-byte typed identifier (`src/src/chunk_type.rs` and
`src/src/chunk_type/trait_impls.rs`), the chunk
(`src/src/chunk.rs`, `src/lib/png_spec/src/chunk.rs` and
`src/lib/png_spec/src/chunk/try_from.rs`) and the container
(`src/lib/png_spec/src/png.rs` and `src/lib/png_spec/src/png/trait_impls.rs`).

Byte buffers are embedded as `List Nat` with each element intended to be a
byte value (`< 256`); theorems carry this as an explicit hypothesis where it
matters.  Fallible Rust paths (`Result`) become `Except`; Rust code that can
panic (`assert_eq!`, out-of-range slicing) is embedded with a dedicated
`DResult.panicked` outcome so that "no panic" is a provable statement.
-/

set_option maxRecDepth 10000

/-- `u32::from_be_bytes` on a list of byte values (big-endian, most
significant first).  Only ever applied to 4-element lists of bytes. -/
def u32_from_be_bytes (l : List Nat) : Nat :=
  l.foldl (fun acc b => acc * 256 + b) 0

/-- `u32::to_be_bytes`: the four big-endian bytes of a 32-bit value.  The
`% 256` projections make the definition total on `Nat`; for `n < 2^32` they
agree with the Rust semantics. -/
def u32_to_be_bytes (n : Nat) : List Nat :=
  [n / 2 ^ 24 % 256, n / 2 ^ 16 % 256, n / 2 ^ 8 % 256, n % 256]

/-- The byte-position tag of `src/src/chunk_type/error.rs` (`enum Byte`, the
same shape as `PropertyByte` in `src/lib/png_spec/src/chunk_type/error.rs`):
which of the four identifier positions held the offending byte, together with
the byte's value.  The Rust field `Private` is rendered `priv` because
`private` is a Lean keyword. -/
inductive PropertyByte
  | ancillary (v : Nat)
  | priv (v : Nat)
  | reserved (v : Nat)
  | safe_to_copy (v : Nat)
deriving DecidableEq, Repr

/-- `ChunkTypeError` of `src/src/chunk_type/error.rs`: the position-tagged
variant (the spec's standardized error granularity).  `InvalidLength` carries
no payload here (the Rust payload is an opaque `TryFromSliceError`). -/
inductive ChunkTypeError
  | invalid_byte (b : PropertyByte)
  | invalid_length
deriving DecidableEq, Repr

/-- `ChunkType` of `src/src/chunk_type.rs`: the four raw identifier bytes.
The Rust field `private` is rendered `priv` (Lean keyword). -/
structure ChunkType where
  ancillary : Nat
  priv : Nat
  reserved : Nat
  safe_to_copy : Nat
deriving DecidableEq, Repr

namespace ChunkType

/-- `ChunkType::POSITION`: the property-bit position. -/
def POSITION : Nat := 5

/-- `ChunkType::is_property_bit_set`: bit 5 of the byte, counting from the
least significant bit. -/
def is_property_bit_set (byte : Nat) : Bool :=
  (byte >>> POSITION) &&& 1 != 0

/-- `ChunkType::is_valid_byte`: `u8::is_ascii_lowercase || u8::is_ascii_uppercase`. -/
def is_valid_byte (byte : Nat) : Bool :=
  (97 ≤ byte && byte ≤ 122) || (65 ≤ byte && byte ≤ 90)

/-- `ChunkType::bytes`. -/
def bytes (ct : ChunkType) : List Nat :=
  [ct.ancillary, ct.priv, ct.reserved, ct.safe_to_copy]

/-- `ChunkType::is_critical`. -/
def is_critical (ct : ChunkType) : Bool :=
  !is_property_bit_set ct.ancillary

/-- `ChunkType::is_public`. -/
def is_public (ct : ChunkType) : Bool :=
  !is_property_bit_set ct.priv

/-- `ChunkType::is_reserved_bit_valid`. -/
def is_reserved_bit_valid (ct : ChunkType) : Bool :=
  !is_property_bit_set ct.reserved

/-- `ChunkType::is_safe_to_copy`. -/
def is_safe_to_copy (ct : ChunkType) : Bool :=
  is_property_bit_set ct.safe_to_copy

/-- `ChunkType::is_valid`. -/
def is_valid (ct : ChunkType) : Bool :=
  ct.is_reserved_bit_valid
    && is_valid_byte ct.ancillary
    && is_valid_byte ct.priv
    && is_valid_byte ct.reserved
    && is_valid_byte ct.safe_to_copy

/-- `impl TryFrom<[u8; 4]> for ChunkType` from
`src/src/chunk_type/trait_impls.rs`: sequential validation returning the
first offending position (the repository also carries a draft in
`src/src/chunk_type.rs` whose error is a bare `InvalidByte` with no
position; the spec standardizes on this position-tagged variant, which is
also the shape of `png_spec`'s error type). -/
def try_from (ancillary priv reserved safe_to_copy : Nat) :
    Except ChunkTypeError ChunkType :=
  if !is_valid_byte ancillary then
    .error (.invalid_byte (.ancillary ancillary))
  else if !is_valid_byte priv then
    .error (.invalid_byte (.priv priv))
  else if !is_valid_byte reserved then
    .error (.invalid_byte (.reserved reserved))
  else if !is_valid_byte safe_to_copy then
    .error (.invalid_byte (.safe_to_copy safe_to_copy))
  else
    .ok ⟨ancillary, priv, reserved, safe_to_copy⟩

/-- The `[u8; 4]` conversion applied to a byte list: the `try_into`
length check of `FromStr` (failing with `InvalidLength`), then `try_from`. -/
def from_bytes_list (l : List Nat) : Except ChunkTypeError ChunkType :=
  match l with
  | [b0, b1, b2, b3] => try_from b0 b1 b2 b3
  | _ => .error .invalid_length

end ChunkType

/-! ## CRC-32 (ISO-HDLC)

The repository delegates the checksum to the `crc` crate's
`CRC_32_ISO_HDLC` (spec §6: an external collaborator).  This is the
standard reflected CRC-32: initial value `0xFFFFFFFF`, reflected
polynomial `0xEDB88320`, final xor `0xFFFFFFFF`, processed one byte at a
time with eight conditional shift-xor rounds per byte.  The embedding is
validated below against the algorithm's published check value
(`crc32 "123456789" = 0xCBF43926`) and the repository's own test fixture
(`crc32 ("RuSt" ++ message) = 2882656334` in `src/src/chunk.rs`). -/

/-- The reflected ISO-HDLC generator polynomial. -/
def CRC32_POLY : Nat := 0xEDB88320

/-- One bit-round of the reflected CRC-32 update. -/
def crc_round (x : Nat) : Nat :=
  if x % 2 = 1 then (x / 2) ^^^ CRC32_POLY else x / 2

/-- Absorb one byte into the running CRC state. -/
def crc_update (acc b : Nat) : Nat :=
  crc_round^[8] (acc ^^^ b)

/-- CRC-32 (ISO-HDLC) of a byte list. -/
def crc32 (bs : List Nat) : Nat :=
  (bs.foldl crc_update 0xFFFFFFFF) ^^^ 0xFFFFFFFF

/-- `ChunkError` merging `src/src/chunk.rs` (`IoError`, `ChuckType`,
`Length`, `Crc`) with the additional `InvalidLength(u32)` constructor of
`src/lib/png_spec/src/chunk/error.rs`.  The `io::Error` payload is dropped
(the only reachable one here is `read_exact`'s unexpected-EOF). -/
inductive ChunkError
  | io_error
  | chuck_type (e : ChunkTypeError)
  | invalid_length (v : Nat)
  | length (expected actual : Nat)
  | crc (expected actual : Nat)
deriving DecidableEq, Repr

instance {ε α : Type} [DecidableEq ε] [DecidableEq α] : DecidableEq (Except ε α)
  | .ok a, .ok b =>
    if h : a = b then isTrue (by rw [h])
    else isFalse (by intro hh; cases hh; exact h rfl)
  | .ok _, .error _ => isFalse (by intro h; cases h)
  | .error _, .ok _ => isFalse (by intro h; cases h)
  | .error a, .error b =>
    if h : a = b then isTrue (by rw [h])
    else isFalse (by intro hh; cases hh; exact h rfl)

/-- `std::io::Read::read_exact` over an in-memory slice: yields the first
`n` bytes and the rest, or an IO error when fewer than `n` remain. -/
def read_exact (n : Nat) (v : List Nat) :
    Except ChunkError (List Nat × List Nat) :=
  if n ≤ v.length then .ok (v.take n, v.drop n) else .error .io_error

/-- `Chunk` of `src/src/chunk.rs` / `src/lib/png_spec/src/chunk.rs`: a
validated type code plus the owned payload bytes. -/
structure Chunk where
  chunk_type : ChunkType
  data : List Nat
deriving DecidableEq, Repr

namespace Chunk

/-- `Chunk::new`. -/
def new (chunk_type : ChunkType) (data : List Nat) : Chunk :=
  ⟨chunk_type, data⟩

/-- `Chunk::data_length` of `src/src/chunk.rs`: `self.data.len() as u32`
(the cast wraps at `2^32`). -/
def data_length (c : Chunk) : Nat :=
  c.data.length % 2 ^ 32

/-- `Chunk::size` of `src/lib/png_spec/src/chunk.rs` (usize arithmetic):
length field + type code + payload + CRC. -/
def size (c : Chunk) : Nat :=
  4 + 4 + c.data.length + 4

/-- `Chunk::crc`: CRC-32 (ISO-HDLC) over the type-code bytes followed by
the payload bytes — excluding the length field and the CRC field itself. -/
def crc (c : Chunk) : Nat :=
  crc32 (c.chunk_type.bytes ++ c.data)

/-- `Chunk::as_bytes` of `src/src/chunk.rs`: big-endian length, type code,
payload, big-endian CRC.  (`png_spec`'s `as_bytes` emits the same bytes for
payloads shorter than `2^32`; beyond that it panics where this one wraps —
outside the domain of every claim.) -/
def as_bytes (c : Chunk) : List Nat :=
  u32_to_be_bytes c.data_length ++ c.chunk_type.bytes ++ c.data
    ++ u32_to_be_bytes c.crc

/-- `impl TryFrom<&[u8]> for Chunk` of `src/src/chunk.rs` (also
`src/src/chunk/try_from.rs`, textually the same code): read the big-endian
length, the type code (validated), `length` payload bytes and the big-endian
CRC; then the defensive length re-check and the eager CRC verification.
This variant has no top-bit length check (the `TODO` at
`src/src/chunk.rs:141`). -/
def try_from (value : List Nat) : Except ChunkError Chunk := do
  let (length_bytes, r1) ← read_exact 4 value
  let length := u32_from_be_bytes length_bytes
  let (type_bytes, r2) ← read_exact 4 r1
  let chunk_type ← (ChunkType.from_bytes_list type_bytes).mapError ChunkError.chuck_type
  let (data, r3) ← read_exact length r2
  let (crc_bytes, _r4) ← read_exact 4 r3
  let crc_val := u32_from_be_bytes crc_bytes
  let data_len := data.length % 2 ^ 32
  if data_len ≠ length then
    .error (.length length data_len)
  else
    let chunk := Chunk.new chunk_type data
    if chunk.crc ≠ crc_val then
      .error (.crc chunk.crc crc_val)
    else
      .ok chunk

end Chunk

/-- A decode outcome that can also record a Rust panic (a failed
`assert_eq!` or an out-of-range slice index), so that panic-freedom is a
provable property of the embedding. -/
inductive DResult (ε α : Type)
  | ok (a : α)
  | err (e : ε)
  | panicked
deriving DecidableEq, Repr

/-- `PngError` of `src/lib/png_spec/src/png/error.rs` (same shape as the
draft in `src/src/lib.rs`), with `io::Error` payloads dropped. -/
inductive PngError
  | chunk (e : ChunkError)
  | chunk_type (e : ChunkTypeError)
  | io
  | header
  | chunck_type_not_found
deriving DecidableEq, Repr

namespace PngSpec

/-- `util::get_bit` of `src/lib/png_spec/src/lib.rs`: bit `bit` of `byte`,
index 0 the least significant. -/
def get_bit (byte : Nat) (bit : Nat) : Bool :=
  (byte >>> bit) &&& 1 != 0

/-- `read_length` of `src/lib/png_spec/src/chunk/try_from.rs`: four
big-endian bytes; the most significant bit of the first byte must be clear
(else `InvalidLength`). -/
def read_length (v : List Nat) : Except ChunkError (Nat × List Nat) := do
  let (length_bytes, r) ← read_exact 4 v
  let length := u32_from_be_bytes length_bytes
  if get_bit (length_bytes.headD 0) 7 then
    .error (.invalid_length length)
  else
    .ok (length, r)

/-- `impl TryFrom<&[u8]> for Chunk` of
`src/lib/png_spec/src/chunk/try_from.rs`: `read_length`, `read_chunk_type`,
`read_data`, `read_crc`, then `assert_eq!(data.len(), length)` (embedded as
the `panicked` outcome) and the CRC verification. -/
def chunk_try_from (value : List Nat) : DResult ChunkError Chunk :=
  match read_length value with
  | .error e => .err e
  | .ok (length, r1) =>
    match read_exact 4 r1 with
    | .error e => .err e
    | .ok (type_bytes, r2) =>
      match ChunkType.from_bytes_list type_bytes with
      | .error e => .err (.chuck_type e)
      | .ok chunk_type =>
        match read_exact length r2 with
        | .error e => .err e
        | .ok (data, r3) =>
          match read_exact 4 r3 with
          | .error e => .err e
          | .ok (crc_bytes, _r4) =>
            let crc_val := u32_from_be_bytes crc_bytes
            if data.length ≠ length then
              .panicked
            else
              let chunk := Chunk.new chunk_type data
              if chunk.crc ≠ crc_val then
                .err (.crc chunk.crc crc_val)
              else
                .ok chunk

/-- `Png` of `src/lib/png_spec/src/png.rs`: the ordered chunk sequence
(the signature is the fixed constant below, not part of the state). -/
structure Png where
  chunks : List Chunk
deriving DecidableEq, Repr

/-- `Png::STANDARD_HEADER`. -/
def STANDARD_HEADER : List Nat :=
  [0x89, 0x50, 0x4e, 0x47, 0x0d, 0x0a, 0x1a, 0x0a]

/-- `Png::from_chunks`. -/
def Png.from_chunks (chunks : List Chunk) : Png :=
  ⟨chunks⟩

/-- `Png::append_chunk` (push at the end). -/
def Png.append_chunk (p : Png) (c : Chunk) : Png :=
  ⟨p.chunks ++ [c]⟩

/-- `Png::as_bytes`: the fixed signature followed by every chunk's
encoding in sequence order. -/
def Png.as_bytes (p : Png) : List Nat :=
  STANDARD_HEADER ++ (p.chunks.map Chunk.as_bytes).flatten

/-- `Vec::swap_remove(i)`: overwrite position `i` with the last element and
pop the last slot.  (On the out-of-domain empty list it is the identity;
`Png::remove` only calls it at a found index.) -/
def swap_remove {α : Type} (l : List α) (i : Nat) : List α :=
  match l.getLast? with
  | none => l
  | some last => (l.set i last).dropLast

/-- A placeholder chunk for the unreachable `getD` default in
`Png.remove` (the found index is always in range). -/
def default_chunk : Chunk :=
  ⟨⟨0, 0, 0, 0⟩, []⟩

/-- `Png::remove` of `src/lib/png_spec/src/png.rs`: position of the first
chunk whose type equals the requested one (else `ChunckTypeNotFound`),
then `Vec::swap_remove` at that index, returning the removed chunk and the
updated container. -/
def Png.remove (p : Png) (chunk_type : ChunkType) :
    Except PngError (Chunk × Png) :=
  match p.chunks.findIdx? (fun c => c.chunk_type == chunk_type) with
  | none => .error .chunck_type_not_found
  | some i => .ok (p.chunks.getD i default_chunk, ⟨swap_remove p.chunks i⟩)

/-- The chunk-decoding loop of `impl TryFrom<&[u8]> for Png`
(`src/lib/png_spec/src/png/trait_impls.rs`), with an explicit step budget
(`fuel`) so the recursion is structural: while bytes remain, decode a chunk
at the cursor and advance by `size()`.  The Rust slice step `v = &v[size..]`
panics when `size` exceeds the remaining length; that branch — and the
unreachable fuel-exhaustion branch, covered by the same panic-freedom
theorem — is embedded as `panicked`. -/
def parse_chunks_go : Nat → List Nat → DResult PngError (List Chunk)
  | _, [] => .ok []
  | 0, _ :: _ => .panicked
  | fuel + 1, b :: bs =>
    match chunk_try_from (b :: bs) with
    | .err e => .err (.chunk e)
    | .panicked => .panicked
    | .ok c =>
      if c.size ≤ (b :: bs).length then
        match parse_chunks_go fuel ((b :: bs).drop c.size) with
        | .ok cs => .ok (c :: cs)
        | .err e => .err e
        | .panicked => .panicked
      else
        .panicked

/-- The chunk loop started with enough budget for every iteration (each
successful chunk decode consumes at least the 12 header/CRC bytes, so
`v.length` steps always suffice — part of the panic-freedom theorem). -/
def parse_chunks (v : List Nat) : DResult PngError (List Chunk) :=
  parse_chunks_go v.length v

/-- `impl TryFrom<&[u8]> for Png`: the 8 signature bytes must be present
and equal to `STANDARD_HEADER`; then the chunk loop over the remainder. -/
def Png.try_from (value : List Nat) : DResult PngError Png :=
  if value.length < 8 then
    .err .io
  else if value.take 8 ≠ STANDARD_HEADER then
    .err .header
  else
    match parse_chunks (value.drop 8) with
    | .ok cs => .ok (Png.from_chunks cs)
    | .err e => .err e
    | .panicked => .panicked

end PngSpec

/-! ## Bit-flip helpers (for the checksum-sensitivity property) -/

/-- Flip bit `i` (0-indexed from the least significant bit) of a byte. -/
def flip_bit (b i : Nat) : Nat := b ^^^ 2 ^ i

/-- Flip bit `i` of the byte at position `p` of a buffer. -/
def flip_bit_at (l : List Nat) (p i : Nat) : List Nat :=
  l.set p (flip_bit (l.getD p 0) i)

/-- A legally-built chunk: valid type bytes, byte-valued payload,
payload length below `2^31`. -/
def legal_chunk (c : Chunk) : Prop :=
  c.chunk_type.bytes.all ChunkType.is_valid_byte = true
    ∧ (∀ b ∈ c.data, b < 256) ∧ c.data.length < 2 ^ 31

/-- UTF-8 decoding of a byte list — the validation performed by Rust's
`std::str::from_utf8` (continuation-byte ranges, no overlong forms, no
surrogates, at most `U+10FFFF`); `none` is the `Utf8Error` case.  An
explicit fuel argument (first parameter) makes the recursion structural;
it is called with the list length, which always suffices since every
step consumes at least one byte. -/
def utf8_decode_go : Nat → List Nat → Option (List Char)
  | _, [] => some []
  | 0, _ :: _ => none
  | fuel + 1, b :: bs =>
    if b < 0x80 then
      (utf8_decode_go fuel bs).map (Char.ofNat b :: ·)
    else if b < 0xC2 then none
    else if b < 0xE0 then
      match bs with
      | b2 :: bs2 =>
        if 0x80 ≤ b2 ∧ b2 < 0xC0 then
          (utf8_decode_go fuel bs2).map
            (Char.ofNat ((b - 0xC0) * 0x40 + (b2 - 0x80)) :: ·)
        else none
      | _ => none
    else if b < 0xF0 then
      match bs with
      | b2 :: b3 :: bs3 =>
        if (0x80 ≤ b2 ∧ b2 < 0xC0) ∧ (0x80 ≤ b3 ∧ b3 < 0xC0)
            ∧ (b = 0xE0 → 0xA0 ≤ b2) ∧ (b = 0xED → b2 < 0xA0) then
          (utf8_decode_go fuel bs3).map
            (Char.ofNat (((b - 0xE0) * 0x40 + (b2 - 0x80)) * 0x40 + (b3 - 0x80)) :: ·)
        else none
      | _ => none
    else if b < 0xF5 then
      match bs with
      | b2 :: b3 :: b4 :: bs4 =>
        if (0x80 ≤ b2 ∧ b2 < 0xC0) ∧ (0x80 ≤ b3 ∧ b3 < 0xC0)
            ∧ (0x80 ≤ b4 ∧ b4 < 0xC0)
            ∧ (b = 0xF0 → 0x90 ≤ b2) ∧ (b = 0xF4 → b2 < 0x90) then
          (utf8_decode_go fuel bs4).map
            (Char.ofNat ((((b - 0xF0) * 0x40 + (b2 - 0x80)) * 0x40
              + (b3 - 0x80)) * 0x40 + (b4 - 0x80)) :: ·)
        else none
      | _ => none
    else none

/-- UTF-8 decode with sufficient fuel. -/
def utf8_decode (l : List Nat) : Option (List Char) :=
  utf8_decode_go l.length l

/-- `Chunk::data_as_string` (`src/src/chunk.rs`): the payload interpreted
as UTF-8, exact-or-fail.  The Rust `Utf8Error` payload is dropped: `none`
is the error case. -/
def Chunk.data_as_string (c : Chunk) : Option String :=
  (utf8_decode c.data).map fun cs => String.mk cs

/-- The payload of the repository's test fixture
(`src/src/chunk.rs`, `testing_chunk`): the ASCII bytes of
"This is where your secret message will be!". -/
def secret_message : List Nat :=
  "This is where your secret message will be!".data.map Char.toNat

/-- The fixture chunk: type "RuSt" (bytes `[82, 117, 83, 116]`) with the
secret-message payload. -/
def rust_chunk : Chunk :=
  ⟨⟨82, 117, 83, 116⟩, secret_message⟩

/-- A chunk with type "ZZZZ" and empty payload: flipping bit 0 of the
first type byte (`0x5A`) of its encoding yields `0x5B`, the byte of `[`,
which is not an ASCII letter. -/
def zz_chunk : Chunk :=
  ⟨⟨90, 90, 90, 90⟩, []⟩

/-- Demonstration chunks of types "AAAA", "BBBB", "CCCC" (all payload-free)
for exercising removal order. -/
def ch_a : Chunk := ⟨⟨65, 65, 65, 65⟩, []⟩

def ch_b : Chunk := ⟨⟨66, 66, 66, 66⟩, []⟩

def ch_c : Chunk := ⟨⟨67, 67, 67, 67⟩, []⟩

/-- A three-chunk container `[AAAA, BBBB, CCCC]`. -/
def demo_png : PngSpec.Png :=
  ⟨[ch_a, ch_b, ch_c]⟩

/-- The byte-position tag carried by the first offending byte of an
identifier, as a function of its index (0 = ancillary, 1 = private,
2 = reserved, 3 = safe-to-copy). -/
def property_byte_at (i v : Nat) : PropertyByte :=
  match i with
  | 0 => .ancillary v
  | 1 => .priv v
  | 2 => .reserved v
  | _ => .safe_to_copy v

/-! ## XOR toolkit -/

theorem xor_xor_cancel_right (a b c : Nat) : (a ^^^ c) ^^^ (b ^^^ c) = a ^^^ b := by
  apply Nat.eq_of_testBit_eq
  intro i
  simp only [Nat.testBit_xor]
  cases a.testBit i <;> cases b.testBit i <;> cases c.testBit i <;> rfl

theorem xor_xor_cancel_left (c a b : Nat) : (c ^^^ a) ^^^ (c ^^^ b) = a ^^^ b := by
  apply Nat.eq_of_testBit_eq
  intro i
  simp only [Nat.testBit_xor]
  cases a.testBit i <;> cases b.testBit i <;> cases c.testBit i <;> rfl

theorem xor_two_pow_ne (b i : Nat) : b ^^^ 2 ^ i ≠ b := by
  intro h
  have := congrArg (fun x => x.testBit i) h
  simp [Nat.testBit_xor, Nat.testBit_two_pow] at this

/-! ## CRC-32 single-byte-error detection

The round function is GF(2)-linear and, on 32-bit states, sends nonzero
differences to nonzero differences; a message difference confined to a
single byte therefore propagates to a nonzero difference of the final CRC
states. -/

theorem crc_round_linear (x y : Nat) :
    crc_round (x ^^^ y) = crc_round x ^^^ crc_round y := by
  unfold crc_round
  rcases Nat.mod_two_eq_zero_or_one x with hx | hx <;>
    rcases Nat.mod_two_eq_zero_or_one y with hy | hy
  · have hxy : (x ^^^ y) % 2 = 0 := by rw [Nat.xor_mod_two_eq]; omega
    rw [if_neg (by omega), if_neg (by omega), if_neg (by omega), Nat.xor_div_two]
  · have hxy : (x ^^^ y) % 2 = 1 := by rw [Nat.xor_mod_two_eq]; omega
    rw [if_pos hxy, if_neg (by omega), if_pos hy, Nat.xor_div_two]
    apply Nat.eq_of_testBit_eq
    intro i
    simp only [Nat.testBit_xor]
    cases (x / 2).testBit i <;> cases (y / 2).testBit i <;>
      cases CRC32_POLY.testBit i <;> rfl
  · have hxy : (x ^^^ y) % 2 = 1 := by rw [Nat.xor_mod_two_eq]; omega
    rw [if_pos hxy, if_pos hx, if_neg (by omega), Nat.xor_div_two]
    apply Nat.eq_of_testBit_eq
    intro i
    simp only [Nat.testBit_xor]
    cases (x / 2).testBit i <;> cases (y / 2).testBit i <;>
      cases CRC32_POLY.testBit i <;> rfl
  · have hxy : (x ^^^ y) % 2 = 0 := by rw [Nat.xor_mod_two_eq]; omega
    rw [if_neg (by omega), if_pos hx, if_pos hy, Nat.xor_div_two]
    apply Nat.eq_of_testBit_eq
    intro i
    simp only [Nat.testBit_xor]
    cases (x / 2).testBit i <;> cases (y / 2).testBit i <;>
      cases CRC32_POLY.testBit i <;> rfl

theorem crc_round_lt {x : Nat} (h : x < 2 ^ 32) : crc_round x < 2 ^ 32 := by
  unfold crc_round
  have hdiv : x / 2 < 2 ^ 32 := Nat.lt_of_le_of_lt (Nat.div_le_self x 2) h
  split
  · exact Nat.xor_lt_two_pow hdiv (by norm_num [CRC32_POLY])
  · exact hdiv

theorem crc_round_ne_zero {x : Nat} (hne : x ≠ 0) (hlt : x < 2 ^ 32) :
    crc_round x ≠ 0 := by
  unfold crc_round
  rcases Nat.mod_two_eq_zero_or_one x with hx | hx
  · rw [if_neg (by omega)]
    omega
  · rw [if_pos hx]
    intro hcon
    have h2 : x / 2 = CRC32_POLY := Nat.xor_eq_zero.mp hcon
    simp only [CRC32_POLY] at h2
    omega

theorem crc_rounds_linear (n x y : Nat) :
    crc_round^[n] (x ^^^ y) = crc_round^[n] x ^^^ crc_round^[n] y := by
  induction n generalizing x y with
  | zero => rfl
  | succ n ih =>
    rw [Function.iterate_succ_apply, Function.iterate_succ_apply,
      Function.iterate_succ_apply, crc_round_linear]
    exact ih _ _

theorem crc_rounds_lt {x : Nat} (n : Nat) (h : x < 2 ^ 32) :
    crc_round^[n] x < 2 ^ 32 := by
  induction n generalizing x with
  | zero => exact h
  | succ n ih =>
    rw [Function.iterate_succ_apply]
    exact ih (crc_round_lt h)

theorem crc_rounds_ne_zero {x : Nat} (n : Nat) (hne : x ≠ 0) (hlt : x < 2 ^ 32) :
    crc_round^[n] x ≠ 0 := by
  induction n generalizing x with
  | zero => exact hne
  | succ n ih =>
    rw [Function.iterate_succ_apply]
    exact ih (crc_round_ne_zero hne hlt) (crc_round_lt hlt)

theorem crc_update_lt {acc b : Nat} (hacc : acc < 2 ^ 32) (hb : b < 256) :
    crc_update acc b < 2 ^ 32 := by
  unfold crc_update
  exact crc_rounds_lt 8 (Nat.xor_lt_two_pow hacc (by omega))

/-- The state difference after absorbing the same byte into two states is
the eight-fold round image of the state difference. -/
theorem crc_update_diff (acc acc2 b : Nat) :
    crc_update acc b ^^^ crc_update acc2 b = crc_round^[8] (acc ^^^ acc2) := by
  unfold crc_update
  rw [← crc_rounds_linear, xor_xor_cancel_right]

theorem crc_fold_lt {bs : List Nat} {acc : Nat} (hacc : acc < 2 ^ 32)
    (hbs : ∀ b ∈ bs, b < 256) :
    bs.foldl crc_update acc < 2 ^ 32 := by
  induction bs generalizing acc with
  | nil => exact hacc
  | cons b bs ih =>
    rw [List.foldl_cons]
    exact ih (crc_update_lt hacc (hbs b (List.mem_cons_self b bs))) fun x hx =>
      hbs x (List.mem_cons_of_mem _ hx)

/-- Distinct 32-bit CRC states remain distinct under absorbing any common
byte suffix. -/
theorem crc_fold_ne {bs : List Nat} {acc acc2 : Nat}
    (hacc : acc < 2 ^ 32) (hacc2 : acc2 < 2 ^ 32) (hne : acc ≠ acc2)
    (hbs : ∀ b ∈ bs, b < 256) :
    bs.foldl crc_update acc ≠ bs.foldl crc_update acc2 := by
  induction bs generalizing acc acc2 with
  | nil => exact hne
  | cons b bs ih =>
    rw [List.foldl_cons, List.foldl_cons]
    have hb : b < 256 := hbs b (List.mem_cons_self b bs)
    apply ih (crc_update_lt hacc hb) (crc_update_lt hacc2 hb)
    · intro hcon
      have hdiff : crc_update acc b ^^^ crc_update acc2 b = 0 := by
        rw [hcon, Nat.xor_self]
      rw [crc_update_diff] at hdiff
      exact crc_rounds_ne_zero 8 (fun h => hne (Nat.xor_eq_zero.mp h))
        (Nat.xor_lt_two_pow hacc hacc2) hdiff
    · intro x hx
      exact hbs x (List.mem_cons_of_mem _ hx)

/-- CRC-32 detects every single-byte substitution: two byte lists that
agree except at one position (where they hold different byte values) have
different checksums. -/
theorem crc32_ne_of_single_byte_diff (pre suf : List Nat) {b b' : Nat}
    (hpre : ∀ x ∈ pre, x < 256) (hb : b < 256) (hb' : b' < 256)
    (hsuf : ∀ x ∈ suf, x < 256) (hne : b ≠ b') :
    crc32 (pre ++ b :: suf) ≠ crc32 (pre ++ b' :: suf) := by
  unfold crc32
  intro hcon
  have hfold : (pre ++ b :: suf).foldl crc_update 0xFFFFFFFF
      = (pre ++ b' :: suf).foldl crc_update 0xFFFFFFFF := by
    have := congrArg (fun z => z ^^^ 0xFFFFFFFF) hcon
    simpa [Nat.xor_assoc] using this
  rw [List.foldl_append, List.foldl_append, List.foldl_cons, List.foldl_cons]
    at hfold
  set a0 := pre.foldl crc_update 0xFFFFFFFF with ha0
  have ha0lt : a0 < 2 ^ 32 := crc_fold_lt (by norm_num) hpre
  have hupne : crc_update a0 b ≠ crc_update a0 b' := by
    intro hcon2
    have hdiff : crc_update a0 b ^^^ crc_update a0 b' = 0 := by
      rw [hcon2, Nat.xor_self]
    unfold crc_update at hdiff
    rw [← crc_rounds_linear, xor_xor_cancel_left] at hdiff
    exact crc_rounds_ne_zero 8 (fun h => hne (Nat.xor_eq_zero.mp h))
      (Nat.xor_lt_two_pow (by omega) (by omega)) hdiff
  exact crc_fold_ne (crc_update_lt ha0lt hb) (crc_update_lt ha0lt hb')
    hupne hsuf hfold

/-! ## Decode-walk lemmas -/

theorem u32_to_be_bytes_length (n : Nat) : (u32_to_be_bytes n).length = 4 := rfl

theorem u32_from_to_be_bytes {n : Nat} (h : n < 2 ^ 32) :
    u32_from_be_bytes (u32_to_be_bytes n) = n := by
  simp only [u32_from_be_bytes, u32_to_be_bytes, List.foldl]
  omega

theorem read_exact_append (n : Nat) (xs rest : List Nat) (h : xs.length = n) :
    read_exact n (xs ++ rest) = .ok (xs, rest) := by
  subst h
  simp only [read_exact]
  rw [if_pos (by simp), List.take_left, List.drop_left]

theorem ChunkType.is_valid_byte_lt {b : Nat}
    (h : ChunkType.is_valid_byte b = true) : b < 256 := by
  simp [ChunkType.is_valid_byte] at h
  omega

theorem crc32_lt {bs : List Nat} (h : ∀ b ∈ bs, b < 256) : crc32 bs < 2 ^ 32 :=
  Nat.xor_lt_two_pow (crc_fold_lt (by norm_num) h) (by norm_num)

theorem ChunkType.from_bytes_list_of_valid (ct : ChunkType)
    (h : ct.bytes.all ChunkType.is_valid_byte = true) :
    ChunkType.from_bytes_list ct.bytes = .ok ct := by
  have h' := h
  simp only [ChunkType.bytes, List.all_cons, List.all_nil, Bool.and_true,
    Bool.and_eq_true] at h'
  obtain ⟨h0, h1, h2, h3⟩ := h'
  simp [ChunkType.from_bytes_list, ChunkType.bytes, ChunkType.try_from, h0, h1, h2, h3]

theorem Chunk.crc_lt (c : Chunk)
    (hvt : c.chunk_type.bytes.all ChunkType.is_valid_byte = true)
    (hd : ∀ b ∈ c.data, b < 256) : c.crc < 2 ^ 32 := by
  apply crc32_lt
  intro b hb
  rcases List.mem_append.mp hb with hb | hb
  · exact ChunkType.is_valid_byte_lt (by
      rw [List.all_eq_true] at hvt
      exact hvt b hb)
  · exact hd b hb

/-- Core of the chunk round-trip: decoding (`src/src` variant) the exact
encoding of a legally-built chunk returns that chunk. -/
theorem chunk_try_from_as_bytes (c : Chunk)
    (hvt : c.chunk_type.bytes.all ChunkType.is_valid_byte = true)
    (hd : ∀ b ∈ c.data, b < 256)
    (hlen : c.data.length < 2 ^ 31) :
    Chunk.try_from c.as_bytes = .ok c := by
  have hdl : c.data_length = c.data.length := by
    simp only [Chunk.data_length]
    omega
  have hcrc : c.crc < 2 ^ 32 := Chunk.crc_lt c hvt hd
  have hdecomp : c.as_bytes = u32_to_be_bytes c.data_length
      ++ (c.chunk_type.bytes ++ (c.data ++ u32_to_be_bytes c.crc)) := by
    simp [Chunk.as_bytes, List.append_assoc]
  have e1 : read_exact 4 c.as_bytes
      = .ok (u32_to_be_bytes c.data_length,
          c.chunk_type.bytes ++ (c.data ++ u32_to_be_bytes c.crc)) := by
    rw [hdecomp]
    exact read_exact_append _ _ _ rfl
  have e2 : read_exact 4 (c.chunk_type.bytes ++ (c.data ++ u32_to_be_bytes c.crc))
      = .ok (c.chunk_type.bytes, c.data ++ u32_to_be_bytes c.crc) :=
    read_exact_append _ _ _ (by simp [ChunkType.bytes])
  have hlb : u32_from_be_bytes (u32_to_be_bytes c.data_length) = c.data.length := by
    rw [u32_from_to_be_bytes (by omega), hdl]
  have e3 : read_exact c.data.length (c.data ++ u32_to_be_bytes c.crc)
      = .ok (c.data, u32_to_be_bytes c.crc) := read_exact_append _ _ _ rfl
  have e4 : read_exact 4 (u32_to_be_bytes c.crc)
      = .ok (u32_to_be_bytes c.crc, []) := by
    simpa using read_exact_append 4 (u32_to_be_bytes c.crc) [] rfl
  have e5 : ChunkType.from_bytes_list c.chunk_type.bytes = .ok c.chunk_type :=
    ChunkType.from_bytes_list_of_valid c.chunk_type hvt
  simp only [Chunk.try_from, e1, e2, hlb, e3, e4, e5, Except.mapError,
    u32_from_to_be_bytes hcrc, bind, Except.bind]
  simp [Chunk.new, hlen, Nat.mod_eq_of_lt (show c.data.length < 2 ^ 32 by omega)]
  omega

theorem read_exact_ok_inv {n : Nat} {v xs r : List Nat}
    (h : read_exact n v = .ok (xs, r)) :
    n ≤ v.length ∧ xs = v.take n ∧ r = v.drop n ∧ xs.length = n := by
  simp only [read_exact] at h
  split at h
  · rename_i hle
    simp only [Except.ok.injEq, Prod.mk.injEq] at h
    exact ⟨hle, h.1.symm, h.2.symm, by rw [← h.1]; simp [List.length_take]; omega⟩
  · simp at h

theorem pngspec_get_bit_to_be_false {n : Nat} (h : n < 2 ^ 31) :
    PngSpec.get_bit ((u32_to_be_bytes n).headD 0) 7 = false := by
  simp [u32_to_be_bytes, PngSpec.get_bit, Nat.shiftRight_eq_div_pow,
    Nat.and_one_is_mod]
  omega

theorem Chunk.as_bytes_length (c : Chunk) : c.as_bytes.length = c.size := by
  simp [Chunk.as_bytes, Chunk.size, ChunkType.bytes, u32_to_be_bytes]
  omega

/-- Core of the `png_spec` chunk decode: decoding at a cursor whose prefix
is the exact encoding of a legally-built chunk returns that chunk (the
trailing bytes are untouched). -/
theorem pngspec_chunk_try_from_append (c : Chunk) (rest : List Nat)
    (hvt : c.chunk_type.bytes.all ChunkType.is_valid_byte = true)
    (hd : ∀ b ∈ c.data, b < 256)
    (hlen : c.data.length < 2 ^ 31) :
    PngSpec.chunk_try_from (c.as_bytes ++ rest) = .ok c := by
  have hdl : c.data_length = c.data.length := by
    simp only [Chunk.data_length]
    omega
  have hcrc : c.crc < 2 ^ 32 := Chunk.crc_lt c hvt hd
  have hdecomp : c.as_bytes ++ rest = u32_to_be_bytes c.data_length
      ++ (c.chunk_type.bytes ++ (c.data ++ (u32_to_be_bytes c.crc ++ rest))) := by
    simp [Chunk.as_bytes, List.append_assoc]
  have e1 : read_exact 4 (c.as_bytes ++ rest)
      = .ok (u32_to_be_bytes c.data_length,
          c.chunk_type.bytes ++ (c.data ++ (u32_to_be_bytes c.crc ++ rest))) := by
    rw [hdecomp]
    exact read_exact_append _ _ _ rfl
  have hlb : u32_from_be_bytes (u32_to_be_bytes c.data_length) = c.data.length := by
    rw [u32_from_to_be_bytes (by omega), hdl]
  have erl : PngSpec.read_length (c.as_bytes ++ rest)
      = .ok (c.data.length,
          c.chunk_type.bytes ++ (c.data ++ (u32_to_be_bytes c.crc ++ rest))) := by
    have hlb2 : u32_from_be_bytes (u32_to_be_bytes c.data.length) = c.data.length := by
      rw [← hdl] at hlb ⊢; exact hlb
    simp only [PngSpec.read_length, e1, bind, Except.bind, hdl,
      pngspec_get_bit_to_be_false hlen, hlb2]
    simp
  have e2 : read_exact 4 (c.chunk_type.bytes ++ (c.data ++ (u32_to_be_bytes c.crc ++ rest)))
      = .ok (c.chunk_type.bytes, c.data ++ (u32_to_be_bytes c.crc ++ rest)) :=
    read_exact_append _ _ _ (by simp [ChunkType.bytes])
  have e3 : read_exact c.data.length (c.data ++ (u32_to_be_bytes c.crc ++ rest))
      = .ok (c.data, u32_to_be_bytes c.crc ++ rest) := read_exact_append _ _ _ rfl
  have e4 : read_exact 4 (u32_to_be_bytes c.crc ++ rest)
      = .ok (u32_to_be_bytes c.crc, rest) := read_exact_append _ _ _ rfl
  have e5 : ChunkType.from_bytes_list c.chunk_type.bytes = .ok c.chunk_type :=
    ChunkType.from_bytes_list_of_valid c.chunk_type hvt
  simp only [PngSpec.chunk_try_from, erl, e2, e3, e4, e5,
    u32_from_to_be_bytes hcrc]
  simp [Chunk.new]

theorem pngspec_read_length_ok_inv {v : List Nat} {len : Nat} {r : List Nat}
    (h : PngSpec.read_length v = .ok (len, r)) :
    4 ≤ v.length ∧ r = v.drop 4 ∧ len = u32_from_be_bytes (v.take 4)
      ∧ PngSpec.get_bit ((v.take 4).headD 0) 7 = false := by
  simp only [PngSpec.read_length, bind, Except.bind] at h
  cases hre : read_exact 4 v with
  | error e => rw [hre] at h; cases h
  | ok pair =>
    obtain ⟨xs, rr⟩ := pair
    obtain ⟨hle, htake, hdrop, hlen4⟩ := read_exact_ok_inv hre
    rw [hre] at h
    dsimp only [] at h
    split at h
    · cases h
    · rename_i hbit
      simp only [Except.ok.injEq, Prod.mk.injEq] at h
      obtain ⟨h1, h2⟩ := h
      subst h1; subst h2
      rw [htake] at hbit
      refine ⟨hle, by rw [hdrop], by rw [htake], ?_⟩
      simpa using hbit

theorem pngspec_chunk_try_from_ne_panicked (v : List Nat) :
    PngSpec.chunk_try_from v ≠ .panicked := by
  intro hcon
  unfold PngSpec.chunk_try_from at hcon
  cases hrl : PngSpec.read_length v with
  | error e => rw [hrl] at hcon; cases hcon
  | ok lr =>
    obtain ⟨len, r1⟩ := lr
    rw [hrl] at hcon
    dsimp only [] at hcon
    cases hr2 : read_exact 4 r1 with
    | error e => rw [hr2] at hcon; cases hcon
    | ok tr =>
      obtain ⟨tb, r2⟩ := tr
      rw [hr2] at hcon
      dsimp only [] at hcon
      cases hct : ChunkType.from_bytes_list tb with
      | error e => rw [hct] at hcon; cases hcon
      | ok ct =>
        rw [hct] at hcon
        dsimp only [] at hcon
        cases hrd : read_exact len r2 with
        | error e => rw [hrd] at hcon; cases hcon
        | ok dr =>
          obtain ⟨data, r3⟩ := dr
          rw [hrd] at hcon
          dsimp only [] at hcon
          cases hrc : read_exact 4 r3 with
          | error e => rw [hrc] at hcon; cases hcon
          | ok cr =>
            obtain ⟨cb, r4⟩ := cr
            rw [hrc] at hcon
            dsimp only [] at hcon
            have hdlen : data.length = len := (read_exact_ok_inv hrd).2.2.2
            split at hcon
            · rename_i hne; exact hne hdlen
            · split at hcon <;> cases hcon

/-- Inversion of a successful `png_spec` chunk decode: the buffer held the
four length bytes (top bit clear), and the consumed record — `size()`
bytes — fits inside the buffer. -/
theorem pngspec_chunk_try_from_ok_inv {v : List Nat} {c : Chunk}
    (h : PngSpec.chunk_try_from v = .ok c) :
    4 ≤ v.length ∧ c.data.length = u32_from_be_bytes (v.take 4)
      ∧ PngSpec.get_bit ((v.take 4).headD 0) 7 = false
      ∧ c.size ≤ v.length := by
  unfold PngSpec.chunk_try_from at h
  cases hrl : PngSpec.read_length v with
  | error e => rw [hrl] at h; cases h
  | ok lr =>
    obtain ⟨len, r1⟩ := lr
    obtain ⟨hv4, hr1, hlen, hbit⟩ := pngspec_read_length_ok_inv hrl
    rw [hrl] at h
    dsimp only [] at h
    cases hr2 : read_exact 4 r1 with
    | error e => rw [hr2] at h; cases h
    | ok tr =>
      obtain ⟨tb, r2⟩ := tr
      obtain ⟨hr14, _, hr2d, _⟩ := read_exact_ok_inv hr2
      rw [hr2] at h
      dsimp only [] at h
      cases hct : ChunkType.from_bytes_list tb with
      | error e => rw [hct] at h; cases h
      | ok ct =>
        rw [hct] at h
        dsimp only [] at h
        cases hrd : read_exact len r2 with
        | error e => rw [hrd] at h; cases h
        | ok dr =>
          obtain ⟨data, r3⟩ := dr
          obtain ⟨hr2len, _, hr3d, hdlen⟩ := read_exact_ok_inv hrd
          rw [hrd] at h
          dsimp only [] at h
          cases hrc : read_exact 4 r3 with
          | error e => rw [hrc] at h; cases h
          | ok cr =>
            obtain ⟨cb, r4⟩ := cr
            obtain ⟨hr34, _, _, _⟩ := read_exact_ok_inv hrc
            rw [hrc] at h
            dsimp only [] at h
            split at h
            · cases h
            · split at h
              · cases h
              · simp only [DResult.ok.injEq] at h
                subst h
                refine ⟨hv4, by simpa [Chunk.new] using hdlen.trans hlen, hbit, ?_⟩
                subst hr1 hr2d hr3d
                simp only [List.length_drop] at hr14 hr2len hr34
                simp only [Chunk.size, Chunk.new]
                omega

theorem parse_chunks_go_nil (fuel : Nat) :
    PngSpec.parse_chunks_go fuel [] = .ok [] := by
  cases fuel <;> rfl

theorem parse_chunks_go_succ (fuel : Nat) (v : List Nat) (hv : v ≠ []) :
    PngSpec.parse_chunks_go (fuel + 1) v =
      match PngSpec.chunk_try_from v with
      | .err e => .err (.chunk e)
      | .panicked => .panicked
      | .ok c =>
        if c.size ≤ v.length then
          match PngSpec.parse_chunks_go fuel (v.drop c.size) with
          | .ok cs => .ok (c :: cs)
          | .err e => .err e
          | .panicked => .panicked
        else
          .panicked := by
  cases v with
  | nil => exact absurd rfl hv
  | cons b bs => rfl

theorem chunk_as_bytes_ne_nil (c : Chunk) : c.as_bytes ≠ [] := by
  intro hcon
  have := congrArg List.length hcon
  rw [Chunk.as_bytes_length] at this
  simp [Chunk.size] at this

theorem parse_chunks_go_flatten (chunks : List Chunk) (fuel : Nat)
    (hfuel : ((chunks.map Chunk.as_bytes).flatten).length ≤ fuel)
    (hleg : ∀ c ∈ chunks, legal_chunk c) :
    PngSpec.parse_chunks_go fuel ((chunks.map Chunk.as_bytes).flatten)
      = .ok chunks := by
  induction chunks generalizing fuel with
  | nil => simpa using parse_chunks_go_nil fuel
  | cons c cs ih =>
    have hflat : ((c :: cs).map Chunk.as_bytes).flatten
        = c.as_bytes ++ ((cs.map Chunk.as_bytes).flatten) := by
      simp
    obtain ⟨hvt, hd, hlen⟩ := hleg c (List.mem_cons_self c cs)
    have hsz : c.as_bytes.length = c.size := Chunk.as_bytes_length c
    have hszpos : 0 < c.size := by simp [Chunk.size]
    cases fuel with
    | zero =>
      exfalso
      rw [hflat] at hfuel
      simp only [List.length_append] at hfuel
      omega
    | succ fuel =>
      rw [hflat, parse_chunks_go_succ fuel _ (by
        intro hcon
        exact chunk_as_bytes_ne_nil c (List.append_eq_nil.mp hcon).1)]
      rw [pngspec_chunk_try_from_append c _ hvt hd hlen]
      dsimp only []
      have hle : c.size ≤ (c.as_bytes ++ (cs.map Chunk.as_bytes).flatten).length := by
        simp only [List.length_append]
        omega
      rw [if_pos hle]
      have hdrop : (c.as_bytes ++ (cs.map Chunk.as_bytes).flatten).drop c.size
          = (cs.map Chunk.as_bytes).flatten := by
        rw [← hsz, List.drop_left]
      rw [hdrop, ih fuel (by
          rw [hflat] at hfuel
          simp only [List.length_append] at hfuel
          omega)
        (fun x hx => hleg x (List.mem_cons_of_mem c hx))]

theorem parse_chunks_go_ne_panicked (fuel : Nat) (v : List Nat)
    (h : v.length ≤ fuel) :
    PngSpec.parse_chunks_go fuel v ≠ .panicked := by
  induction fuel generalizing v with
  | zero =>
    have : v = [] := by
      cases v with
      | nil => rfl
      | cons b bs => simp at h
    rw [this, parse_chunks_go_nil]
    intro hcon
    cases hcon
  | succ fuel ih =>
    cases hv : v with
    | nil =>
      rw [parse_chunks_go_nil]
      intro hcon
      cases hcon
    | cons b bs =>
      rw [← hv, parse_chunks_go_succ fuel v (by rw [hv]; intro hcon; cases hcon)]
      cases hct : PngSpec.chunk_try_from v with
      | err e => intro hcon; cases hcon
      | panicked => exact absurd hct (pngspec_chunk_try_from_ne_panicked v)
      | ok c =>
        dsimp only []
        obtain ⟨hv4, _, _, hsz⟩ := pngspec_chunk_try_from_ok_inv hct
        rw [if_pos hsz]
        have hszpos : 0 < c.size := by simp [Chunk.size]
        have hrec := ih (v.drop c.size) (by
          simp only [List.length_drop]
          subst hv
          simp only [List.length_cons] at h hv4 ⊢
          omega)
        cases hpc : PngSpec.parse_chunks_go fuel (v.drop c.size) with
        | ok cs => intro hcon; cases hcon
        | err e => intro hcon; cases hcon
        | panicked => exact absurd hpc hrec

/-- The container decoder never panics (this simultaneously discharges the
in-loop `assert_eq!`, the slice advance `v = &v[size..]`, and the loop's
step budget). -/
theorem png_try_from_ne_panicked (v : List Nat) :
    PngSpec.Png.try_from v ≠ .panicked := by
  unfold PngSpec.Png.try_from
  split
  · intro hcon; cases hcon
  · split
    · intro hcon; cases hcon
    · unfold PngSpec.parse_chunks
      cases hpc : PngSpec.parse_chunks_go (v.drop 8).length (v.drop 8) with
      | ok cs => intro hcon; cases hcon
      | err e => intro hcon; cases hcon
      | panicked =>
        exact absurd hpc (parse_chunks_go_ne_panicked _ _ (Nat.le_refl _))

/-- Decoding the container's own encoding restores the container. -/
theorem png_try_from_as_bytes (p : PngSpec.Png)
    (hleg : ∀ c ∈ p.chunks, legal_chunk c) :
    PngSpec.Png.try_from p.as_bytes = .ok p := by
  unfold PngSpec.Png.try_from PngSpec.Png.as_bytes
  have hlen8 : ¬ (PngSpec.STANDARD_HEADER
      ++ (p.chunks.map Chunk.as_bytes).flatten).length < 8 := by
    simp [PngSpec.STANDARD_HEADER]
  rw [if_neg hlen8]
  have htake : (PngSpec.STANDARD_HEADER
      ++ (p.chunks.map Chunk.as_bytes).flatten).take 8 = PngSpec.STANDARD_HEADER :=
    List.take_left' rfl
  rw [if_neg (by intro hne; exact hne htake)]
  have hdrop : (PngSpec.STANDARD_HEADER
      ++ (p.chunks.map Chunk.as_bytes).flatten).drop 8
        = (p.chunks.map Chunk.as_bytes).flatten :=
    List.drop_left' rfl
  unfold PngSpec.parse_chunks
  rw [hdrop, parse_chunks_go_flatten p.chunks _ (Nat.le_refl _) hleg]
  rfl

/-- A wrong signature is rejected with the `Header` error. -/
theorem png_try_from_bad_header {v : List Nat} (h8 : 8 ≤ v.length)
    (hne : v.take 8 ≠ PngSpec.STANDARD_HEADER) :
    PngSpec.Png.try_from v = .err .header := by
  unfold PngSpec.Png.try_from
  rw [if_neg (by omega), if_pos hne]

/-! ## Swap-removal list theory -/

theorem set_perm_cons_eraseIdx {α : Type} (m : List α) (i : Nat) (a : α)
    (h : i < m.length) : (m.set i a).Perm (a :: m.eraseIdx i) := by
  induction m generalizing i with
  | nil => simp at h
  | cons x xs ih =>
    cases i with
    | zero => simp [List.Perm.refl]
    | succ i =>
      simp only [List.set_cons_succ, List.eraseIdx_cons_succ]
      exact ((ih i (by simpa using h)).cons x).trans (List.Perm.swap a x _)

theorem swap_remove_perm {α : Type} (l : List α) (i : Nat) (h : i < l.length) :
    (PngSpec.swap_remove l i).Perm (l.eraseIdx i) := by
  have hne : l ≠ [] := by
    intro hc
    subst hc
    simp at h
  obtain ⟨m, a, rfl⟩ : ∃ m a, l = m ++ [a] :=
    ⟨l.dropLast, l.getLast hne, (List.dropLast_concat_getLast hne).symm⟩
  unfold PngSpec.swap_remove
  rw [List.getLast?_concat]
  dsimp only []
  have hlen : i < m.length + 1 := by simpa using h
  rcases Nat.lt_or_ge i m.length with hi | hi
  · rw [List.set_append_left _ _ hi, List.dropLast_concat,
      List.eraseIdx_append_of_lt_length hi]
    exact (set_perm_cons_eraseIdx m i a hi).trans
      (List.perm_append_singleton a (m.eraseIdx i)).symm
  · have hieq : i = m.length := by omega
    subst hieq
    rw [List.set_append_right _ _ (Nat.le_refl _), List.eraseIdx_append_of_length_le (Nat.le_refl _)]
    simp [List.dropLast_concat]

/-- Behaviour of `Png::remove` when a matching chunk exists: the removed
chunk is the first whose type matches, and the surviving chunks are, up to
permutation, the original sequence minus the removed occurrence. -/
theorem png_remove_of_mem (p : PngSpec.Png) (t : ChunkType)
    (h : ∃ c ∈ p.chunks, c.chunk_type = t) :
    ∃ i rc q, p.chunks.findIdx? (fun c => c.chunk_type == t) = some i
      ∧ PngSpec.Png.remove p t = .ok (rc, q)
      ∧ p.chunks[i]? = some rc
      ∧ rc.chunk_type = t
      ∧ (∀ j, j < i → ∀ cj, p.chunks[j]? = some cj → cj.chunk_type ≠ t)
      ∧ q.chunks.Perm (p.chunks.eraseIdx i) := by
  obtain ⟨c0, hc0, hct0⟩ := h
  have hfind := List.findIdx?_eq_some_of_exists (p := fun c => c.chunk_type == t)
    ⟨c0, hc0, by simp [hct0]⟩
  set i := p.chunks.findIdx (fun c => c.chunk_type == t) with hi
  obtain ⟨hlt, hpi, hprev⟩ := List.findIdx?_eq_some_iff_getElem.mp hfind
  refine ⟨i, p.chunks[i], ⟨PngSpec.swap_remove p.chunks i⟩, hfind, ?_, ?_, ?_, ?_, ?_⟩
  · unfold PngSpec.Png.remove
    rw [hfind]
    dsimp only []
    congr 1
    rw [List.getD_eq_getElem?_getD, List.getElem?_eq_getElem hlt]
    rfl
  · exact List.getElem?_eq_getElem hlt
  · simpa using hpi
  · intro j hj cj hcj
    have hjlt : j < p.chunks.length := Nat.lt_trans hj hlt
    rw [List.getElem?_eq_getElem hjlt] at hcj
    have := hprev j hj
    simp only [Option.some.injEq] at hcj
    subst hcj
    simpa using this
  · exact swap_remove_perm p.chunks i hlt

theorem ChunkType.from_bytes_list_of_valid_list (l : List Nat)
    (hlen : l.length = 4) (hall : l.all ChunkType.is_valid_byte = true) :
    ∃ ct : ChunkType, ChunkType.from_bytes_list l = .ok ct ∧ ct.bytes = l := by
  match l, hlen with
  | [a, b, c, d], _ =>
    simp only [List.all_cons, List.all_nil, Bool.and_true, Bool.and_eq_true] at hall
    obtain ⟨h0, h1, h2, h3⟩ := hall
    exact ⟨⟨a, b, c, d⟩, by simp [ChunkType.from_bytes_list, ChunkType.try_from,
      h0, h1, h2, h3], rfl⟩

/-- Single-bit corruption inside the type-code/payload region of an encoded
chunk (checksum field untouched) is caught by the decoder's CRC check,
provided the corrupted type code still passes the alphabetic validation
(otherwise decoding fails earlier, with a type error). -/
theorem chunk_try_from_flip_crc_err (c : Chunk) (p i : Nat)
    (hvt : c.chunk_type.bytes.all ChunkType.is_valid_byte = true)
    (hd : ∀ b ∈ c.data, b < 256)
    (hlen : c.data.length < 2 ^ 31)
    (hi : i < 8) (hp4 : 4 ≤ p) (hp : p < 8 + c.data.length)
    (hvt2 : (((flip_bit_at c.as_bytes p i).drop 4).take 4).all
      ChunkType.is_valid_byte = true) :
    ∃ e a, Chunk.try_from (flip_bit_at c.as_bytes p i)
      = .error (ChunkError.crc e a) ∧ e ≠ a := by
  have hdl : c.data_length = c.data.length := by
    simp only [Chunk.data_length]
    omega
  have hcrc : c.crc < 2 ^ 32 := Chunk.crc_lt c hvt hd
  set lb := u32_to_be_bytes c.data_length with hlb_def
  set cb := u32_to_be_bytes c.crc with hcb_def
  set msg := c.chunk_type.bytes ++ c.data with hmsg_def
  have hmsg_len : msg.length = 4 + c.data.length := by
    simp [hmsg_def, ChunkType.bytes]
    omega
  have hmsg_bytes : ∀ b ∈ msg, b < 256 := by
    intro b hb
    rcases List.mem_append.mp hb with hb | hb
    · exact ChunkType.is_valid_byte_lt (by
        rw [List.all_eq_true] at hvt
        exact hvt b hb)
    · exact hd b hb
  have hdecomp : c.as_bytes = lb ++ (msg ++ cb) := by
    simp [Chunk.as_bytes, hmsg_def, List.append_assoc]
  set q := p - 4 with hq_def
  have hq : q < msg.length := by omega
  -- the flip happens inside `msg`
  have hflip : flip_bit_at c.as_bytes p i = lb ++ (flip_bit_at msg q i ++ cb) := by
    rw [hdecomp]
    unfold flip_bit_at
    have hlb4 : lb.length = 4 := rfl
    have hget : (lb ++ (msg ++ cb)).getD p 0 = (msg ++ cb).getD q 0 := by
      simp only [List.getD_eq_getElem?_getD]
      rw [List.getElem?_append_right (by omega)]
      simp [hlb4, hq_def]
    have hget2 : (msg ++ cb).getD q 0 = msg.getD q 0 := by
      simp only [List.getD_eq_getElem?_getD]
      rw [List.getElem?_append_left hq]
    rw [hget, hget2, List.set_append_right _ _ (by omega),
      List.set_append_left _ _ (by omega)]
    simp [hlb4, hq_def]
  set b0 := msg.getD q 0 with hb0_def
  set b1 := flip_bit b0 i with hb1_def
  have hb0_lt : b0 < 256 := by
    rw [hb0_def, List.getD_eq_getElem?_getD, List.getElem?_eq_getElem hq]
    exact hmsg_bytes _ (List.getElem_mem hq)
  have hb1_lt : b1 < 256 := by
    have h2i : 2 ^ i < 256 := by
      calc 2 ^ i ≤ 2 ^ 7 := Nat.pow_le_pow_right (by omega) (by omega)
      _ < 256 := by norm_num
    exact Nat.xor_lt_two_pow (n := 8) (by omega) (by omega)
  have hb_ne : b1 ≠ b0 := xor_two_pow_ne b0 i
  set msg2 := flip_bit_at msg q i with hmsg2_def
  have hmsg2_split : msg2 = msg.take q ++ b1 :: msg.drop (q + 1) := by
    rw [hmsg2_def]
    unfold flip_bit_at
    rw [List.set_eq_take_cons_drop _ hq]
  have hmsg_split : msg = msg.take q ++ b0 :: msg.drop (q + 1) := by
    conv_lhs => rw [← List.take_append_drop q msg, List.drop_eq_getElem_cons hq]
    rw [hb0_def, List.getD_eq_getElem?_getD, List.getElem?_eq_getElem hq]
    rfl
  have hmsg2_len : msg2.length = msg.length := by
    rw [hmsg2_def]
    unfold flip_bit_at
    exact List.length_set msg q _
  have hcrc_ne : crc32 msg2 ≠ crc32 msg := by
    rw [hmsg2_split]
    conv_rhs => rw [hmsg_split]
    exact crc32_ne_of_single_byte_diff (msg.take q) (msg.drop (q + 1))
      (fun x hx => hmsg_bytes x (List.mem_of_mem_take hx)) hb1_lt hb0_lt
      (fun x hx => hmsg_bytes x (List.mem_of_mem_drop hx)) hb_ne
  -- decode walk over the corrupted buffer
  set tb2 := msg2.take 4 with htb2_def
  set data2 := msg2.drop 4 with hdata2_def
  have htb2_len : tb2.length = 4 := by
    rw [htb2_def, List.length_take]
    omega
  have hdata2_len : data2.length = c.data.length := by
    rw [hdata2_def, List.length_drop, hmsg2_len, hmsg_len]
    omega
  have hsplit2 : msg2 = tb2 ++ data2 := (List.take_append_drop 4 msg2).symm
  have e1 : read_exact 4 (flip_bit_at c.as_bytes p i)
      = .ok (lb, msg2 ++ cb) := by
    rw [hflip]
    exact read_exact_append _ _ _ rfl
  have hlb_val : u32_from_be_bytes lb = c.data.length := by
    rw [hlb_def, u32_from_to_be_bytes (by omega), hdl]
  have e2 : read_exact 4 (msg2 ++ cb) = .ok (tb2, data2 ++ cb) := by
    rw [hsplit2, List.append_assoc]
    exact read_exact_append _ _ _ htb2_len
  have htb2_valid : tb2.all ChunkType.is_valid_byte = true := by
    have hdrop4 : (flip_bit_at c.as_bytes p i).drop 4 = msg2 ++ cb := by
      rw [hflip]
      exact List.drop_left' rfl
    have htake4 : ((msg2 ++ cb)).take 4 = tb2 := by
      rw [hsplit2, List.append_assoc]
      exact List.take_left' htb2_len
    rw [hdrop4, htake4] at hvt2
    exact hvt2
  obtain ⟨ct2, hct2, hct2_bytes⟩ :=
    ChunkType.from_bytes_list_of_valid_list tb2 htb2_len htb2_valid
  have e3 : read_exact c.data.length (data2 ++ cb) = .ok (data2, cb) :=
    read_exact_append _ _ _ hdata2_len
  have e4 : read_exact 4 cb = .ok (cb, []) := by
    simpa using read_exact_append 4 cb [] rfl
  have hcb_val : u32_from_be_bytes cb = c.crc := by
    rw [hcb_def, u32_from_to_be_bytes hcrc]
  have hchunk_crc : (Chunk.new ct2 data2).crc = crc32 msg2 := by
    simp only [Chunk.new, Chunk.crc, hct2_bytes]
    rw [hsplit2]
  refine ⟨(Chunk.new ct2 data2).crc, c.crc, ?_, ?_⟩
  · simp only [Chunk.try_from, e1, e2, e3, e4, hct2, hlb_val, hcb_val,
      Except.mapError, bind, Except.bind]
    rw [if_neg (by
      simp only [hdata2_len]
      omega)]
    rw [if_pos (by
      rw [hchunk_crc]
      intro hcon
      exact hcrc_ne (hcon.symm ▸ rfl))]
  · rw [hchunk_crc]
    intro hcon
    exact hcrc_ne hcon

/-- A buffer whose 4-byte length field has the most significant bit set is
rejected by the `png_spec` decoder with `InvalidLength`. -/
theorem pngspec_chunk_try_from_top_bit (b0 b1 b2 b3 : Nat) (rest : List Nat)
    (hbit : PngSpec.get_bit b0 7 = true) :
    PngSpec.chunk_try_from (b0 :: b1 :: b2 :: b3 :: rest)
      = .err (.invalid_length (u32_from_be_bytes [b0, b1, b2, b3])) := by
  have e1 : read_exact 4 (b0 :: b1 :: b2 :: b3 :: rest)
      = .ok ([b0, b1, b2, b3], rest) :=
    read_exact_append 4 [b0, b1, b2, b3] rest rfl
  have erl : PngSpec.read_length (b0 :: b1 :: b2 :: b3 :: rest)
      = .error (.invalid_length (u32_from_be_bytes [b0, b1, b2, b3])) := by
    simp only [PngSpec.read_length, e1, bind, Except.bind]
    rw [if_pos (by simpa using hbit)]
  unfold PngSpec.chunk_try_from
  rw [erl]

/-- A successful `png_spec` chunk decode (from a byte-valued buffer) never
carries a payload of `2^31` bytes or more: the declared length's top bit
was checked to be clear. -/
theorem pngspec_chunk_try_from_ok_length_lt {v : List Nat} {c : Chunk}
    (hbytes : ∀ b ∈ v, b < 256)
    (h : PngSpec.chunk_try_from v = .ok c) :
    c.data.length < 2 ^ 31 := by
  obtain ⟨hv4, hlen, hbit, _⟩ := pngspec_chunk_try_from_ok_inv h
  match v, hv4, hbytes, hlen, hbit with
  | b0 :: b1 :: b2 :: b3 :: rest, _, hbytes, hlen, hbit =>
    have h0 : b0 < 256 := hbytes b0 (by simp)
    have h1 : b1 < 256 := hbytes b1 (by simp)
    have h2 : b2 < 256 := hbytes b2 (by simp)
    have h3 : b3 < 256 := hbytes b3 (by simp)
    have htk : (b0 :: b1 :: b2 :: b3 :: rest).take 4 = [b0, b1, b2, b3] := rfl
    rw [htk] at hlen hbit
    have hb0 : b0 < 128 := by
      simp only [PngSpec.get_bit, List.headD, Nat.shiftRight_eq_div_pow,
        Nat.and_one_is_mod, bne_eq_false_iff_eq] at hbit
      omega
    rw [hlen]
    simp only [u32_from_be_bytes, List.foldl]
    omega

/-- `ChunkType::try_from` rejects a 4-byte input containing a
non-alphabetic byte with `InvalidByte` tagged by the *first* offending
position (together with that byte's value). -/
theorem chunk_type_try_from_first_invalid (b0 b1 b2 b3 : Nat)
    (h : ¬ ([b0, b1, b2, b3].all ChunkType.is_valid_byte = true)) :
    ChunkType.try_from b0 b1 b2 b3 = .error (.invalid_byte
      (property_byte_at
        ([b0, b1, b2, b3].findIdx (fun b => !ChunkType.is_valid_byte b))
        ([b0, b1, b2, b3].getD
          ([b0, b1, b2, b3].findIdx (fun b => !ChunkType.is_valid_byte b)) 0))) := by
  by_cases h0 : ChunkType.is_valid_byte b0 <;>
    by_cases h1 : ChunkType.is_valid_byte b1 <;>
      by_cases h2 : ChunkType.is_valid_byte b2 <;>
        by_cases h3 : ChunkType.is_valid_byte b3
  all_goals simp [ChunkType.try_from, List.findIdx_cons, property_byte_at,
    h0, h1, h2, h3]
  exact h (by simp [h0, h1, h2, h3])

/-- The property predicates all read bit 5 of their byte. -/
theorem is_property_bit_set_eq_testBit (b : Nat) :
    ChunkType.is_property_bit_set b = b.testBit 5 := by
  simp [ChunkType.is_property_bit_set, ChunkType.POSITION, Nat.testBit,
    Nat.and_comm]

/-! ## The claims -/

/-- C1.  For every chunk built from a legal 4-letter identifier and
arbitrary payload bytes of length less than `2^31`, decoding the bytes
produced by encoding the chunk succeeds and yields a chunk with identifier
bytes, payload bytes, and checksum identical to those of the original
(the decoded chunk is equal to the original, so all three coincide). -/
theorem claim_c1_chunk_round_trip (c : Chunk) (h : legal_chunk c) :
    Chunk.try_from c.as_bytes = .ok c := by
  obtain ⟨hvt, hd, hlen⟩ := h
  exact chunk_try_from_as_bytes c hvt hd hlen

theorem claim_c1_witness :
    Chunk.try_from rust_chunk.as_bytes = .ok rust_chunk :=
  claim_c1_chunk_round_trip rust_chunk (by
    refine ⟨by decide, ?_, by decide⟩
    decide)

/-- C2 (counterexample to the claim as stated).  Removing type "AAAA" from
the container `[AAAA, BBBB, CCCC]` leaves `[CCCC, BBBB]`: the removed chunk
is the first match, but the remaining chunks are *not* in their original
relative order (`swap_remove` moved the last chunk into the freed slot), so
stable removal fails. -/
theorem claim_c2_counterexample :
    PngSpec.Png.remove demo_png ⟨65, 65, 65, 65⟩
        = .ok (ch_a, ⟨[ch_c, ch_b]⟩)
      ∧ [ch_c, ch_b] ≠ [ch_b, ch_c] := by
  constructor
  · decide
  · decide

/-- C2 (amended).  For every container whose chunk sequence contains a
chunk of the requested type, remove-by-type removes exactly the first
chunk whose identifier equals the requested type and returns it; the
remaining chunks are a permutation of the original sequence minus that
occurrence (the last chunk is swapped into the freed slot), with relative
order not preserved in general. -/
theorem claim_c2_remove_first_match_swap (p : PngSpec.Png) (t : ChunkType)
    (h : ∃ c ∈ p.chunks, c.chunk_type = t) :
    ∃ i rc q, p.chunks.findIdx? (fun c => c.chunk_type == t) = some i
      ∧ PngSpec.Png.remove p t = .ok (rc, q)
      ∧ p.chunks[i]? = some rc
      ∧ rc.chunk_type = t
      ∧ (∀ j, j < i → ∀ cj, p.chunks[j]? = some cj → cj.chunk_type ≠ t)
      ∧ q.chunks.Perm (p.chunks.eraseIdx i) :=
  png_remove_of_mem p t h

theorem claim_c2_witness :
    ∃ i rc q, demo_png.chunks.findIdx?
        (fun c => c.chunk_type == (⟨66, 66, 66, 66⟩ : ChunkType)) = some i
      ∧ PngSpec.Png.remove demo_png ⟨66, 66, 66, 66⟩ = .ok (rc, q)
      ∧ demo_png.chunks[i]? = some rc
      ∧ rc.chunk_type = ⟨66, 66, 66, 66⟩
      ∧ (∀ j, j < i → ∀ cj, demo_png.chunks[j]? = some cj
          → cj.chunk_type ≠ ⟨66, 66, 66, 66⟩)
      ∧ q.chunks.Perm (demo_png.chunks.eraseIdx i) :=
  claim_c2_remove_first_match_swap demo_png ⟨66, 66, 66, 66⟩
    ⟨ch_b, by decide, rfl⟩

/-- C3.  A buffer whose first four bytes, read as a big-endian length,
have the top bit set is rejected by the `png_spec` chunk decoder with the
`InvalidLength` decode error; and no successfully decoded chunk (from a
byte-valued buffer) ever has a declared length with the top bit set,
i.e. a payload of `2^31` bytes or more. -/
theorem claim_c3_top_bit_rejected :
    (∀ b0 b1 b2 b3 : Nat, ∀ rest : List Nat, PngSpec.get_bit b0 7 = true →
      PngSpec.chunk_try_from (b0 :: b1 :: b2 :: b3 :: rest)
        = .err (.invalid_length (u32_from_be_bytes [b0, b1, b2, b3])))
    ∧ (∀ v : List Nat, ∀ c : Chunk, (∀ b ∈ v, b < 256) →
        PngSpec.chunk_try_from v = .ok c → c.data.length < 2 ^ 31) :=
  ⟨pngspec_chunk_try_from_top_bit,
    fun _ _ hb h => pngspec_chunk_try_from_ok_length_lt hb h⟩

theorem claim_c3_witness :
    PngSpec.chunk_try_from [128, 0, 0, 0]
        = .err (.invalid_length 2147483648)
      ∧ rust_chunk.data.length < 2 ^ 31 :=
  ⟨by
    have := claim_c3_top_bit_rejected.1 128 0 0 0 [] (by decide)
    simpa using this,
  claim_c3_top_bit_rejected.2 rust_chunk.as_bytes rust_chunk
    (by decide) (by decide)⟩

/-- C4.  For every container built from legally-constructed chunks (each
payload shorter than `2^31` bytes), decoding the bytes produced by
encoding the container succeeds and yields a container holding the same
chunk sequence in the same order. -/
theorem claim_c4_container_round_trip (p : PngSpec.Png)
    (h : ∀ c ∈ p.chunks, legal_chunk c) :
    PngSpec.Png.try_from p.as_bytes = .ok p :=
  png_try_from_as_bytes p h

theorem claim_c4_witness :
    PngSpec.Png.try_from (PngSpec.Png.as_bytes ⟨[rust_chunk, zz_chunk]⟩)
      = .ok ⟨[rust_chunk, zz_chunk]⟩ :=
  claim_c4_container_round_trip ⟨[rust_chunk, zz_chunk]⟩ (by
    intro c hc
    simp only [List.mem_cons, List.not_mem_nil, or_false] at hc
    rcases hc with rfl | rfl
    · exact ⟨by decide, by decide, by decide⟩
    · exact ⟨by decide, by decide, by decide⟩)

/-- C5 (counterexample to the claim as stated).  Flipping bit 0 of the
first identifier byte of the encoded "ZZZZ" chunk (checksum field
untouched) turns `Z` (`0x5A`) into `[` (`0x5B`): decoding fails with the
type-validation error `InvalidByte`, not with a checksum mismatch. -/
theorem claim_c5_counterexample :
    Chunk.try_from (flip_bit_at zz_chunk.as_bytes 4 0)
        = .error (.chuck_type (.invalid_byte (.ancillary 91)))
      ∧ (match Chunk.try_from (flip_bit_at zz_chunk.as_bytes 4 0) with
          | .error (ChunkError.crc _ _) => true
          | _ => false) = false := by
  constructor
  · decide
  · decide

/-- C5 (amended).  For every validly-constructed chunk and every
single-bit flip applied to one bit of the identifier or payload region of
its encoding, with the trailing 4-byte checksum field left unchanged,
decoding the modified buffer fails with the checksum-mismatch error —
provided that, when the flip lands in the identifier region, the flipped
identifier bytes are still ASCII letters (otherwise decoding fails
earlier with an `InvalidByte` type error, per the counterexample). -/
theorem claim_c5_flip_checksum_mismatch (c : Chunk) (p i : Nat)
    (hleg : legal_chunk c) (hi : i < 8) (hp4 : 4 ≤ p)
    (hp : p < 8 + c.data.length)
    (hvt2 : (((flip_bit_at c.as_bytes p i).drop 4).take 4).all
      ChunkType.is_valid_byte = true) :
    ∃ e a, Chunk.try_from (flip_bit_at c.as_bytes p i)
      = .error (ChunkError.crc e a) ∧ e ≠ a := by
  obtain ⟨hvt, hd, hlen⟩ := hleg
  exact chunk_try_from_flip_crc_err c p i hvt hd hlen hi hp4 hp hvt2

theorem claim_c5_witness :
    ∃ e a, Chunk.try_from (flip_bit_at rust_chunk.as_bytes 8 0)
      = .error (ChunkError.crc e a) ∧ e ≠ a :=
  claim_c5_flip_checksum_mismatch rust_chunk 8 0
    (by refine ⟨by decide, ?_, by decide⟩; decide)
    (by decide) (by decide) (by decide) (by decide)

/-- C6.  For every 4-byte input containing at least one byte outside the
ASCII letter ranges, identifier construction fails with `InvalidByte`
naming the first offending position (ancillary, private, reserved or
safe-to-copy) together with the offending byte value. -/
theorem claim_c6_first_invalid_byte (b0 b1 b2 b3 : Nat)
    (h : ¬ ([b0, b1, b2, b3].all ChunkType.is_valid_byte = true)) :
    ChunkType.try_from b0 b1 b2 b3 = .error (.invalid_byte
      (property_byte_at
        ([b0, b1, b2, b3].findIdx (fun b => !ChunkType.is_valid_byte b))
        ([b0, b1, b2, b3].getD
          ([b0, b1, b2, b3].findIdx (fun b => !ChunkType.is_valid_byte b)) 0))) :=
  chunk_type_try_from_first_invalid b0 b1 b2 b3 h

theorem claim_c6_witness :
    ChunkType.try_from 82 117 49 116
      = .error (.invalid_byte (.reserved 49)) := by
  rw [claim_c6_first_invalid_byte 82 117 49 116 (by decide)]
  decide

/-- C7.  Every buffer of at least 8 bytes whose first 8 bytes differ from
the fixed signature `0x89 0x50 0x4E 0x47 0x0D 0x0A 0x1A 0x0A` is rejected
by the container decoder with the bad-signature (`Header`) error,
regardless of the remaining bytes — before any chunk is parsed. -/
theorem claim_c7_bad_signature (v : List Nat) (h8 : 8 ≤ v.length)
    (hne : v.take 8 ≠ PngSpec.STANDARD_HEADER) :
    PngSpec.Png.try_from v = .err .header :=
  png_try_from_bad_header h8 hne

theorem claim_c7_witness :
    PngSpec.Png.try_from [0, 0, 0, 0, 0, 0, 0, 0] = .err .header :=
  claim_c7_bad_signature [0, 0, 0, 0, 0, 0, 0, 0] (by decide) (by decide)

/-- C8 (counterexample to the claim as stated).  The fixture payload
"This is where your secret message will be!" is 42 bytes, not 44, and the
chunk's well-formed encoding is 54 bytes, not 56. -/
theorem claim_c8_counterexample :
    rust_chunk.data.length = 42 ∧ ¬ (rust_chunk.data.length = 44)
      ∧ rust_chunk.as_bytes.length = 54
      ∧ ¬ (rust_chunk.as_bytes.length = 56) := by
  refine ⟨by decide, by decide, by decide, by decide⟩

/-- C8 (amended).  For the chunk with identifier "RuSt" and payload
"This is where your secret message will be!": the payload length is 42
bytes, the CRC-32 (ISO-HDLC) over the identifier bytes followed by the
payload bytes equals 2882656334, and decoding the chunk's well-formed
54-byte encoding succeeds with `data_as_string` returning exactly the
payload string. -/
theorem claim_c8_fixture :
    rust_chunk.data.length = 42
      ∧ rust_chunk.crc = 2882656334
      ∧ rust_chunk.as_bytes.length = 54
      ∧ Chunk.try_from rust_chunk.as_bytes = .ok rust_chunk
      ∧ rust_chunk.data_as_string
          = some "This is where your secret message will be!" := by
  refine ⟨by decide, by decide, by decide, by decide, by decide⟩

/-- C9.  The identifier built from bytes `[82, 117, 83, 116]` ("RuSt")
has `is_critical = true`, `is_public = false`,
`is_reserved_bit_valid = true`, `is_safe_to_copy = true`; and in general
each of the four predicates is determined by bit 5 (counting from the
least significant bit) of the corresponding identifier byte. -/
theorem claim_c9_property_bits :
    (∃ ct : ChunkType, ChunkType.try_from 82 117 83 116 = .ok ct
      ∧ ct.is_critical = true ∧ ct.is_public = false
      ∧ ct.is_reserved_bit_valid = true ∧ ct.is_safe_to_copy = true)
    ∧ (∀ ct : ChunkType,
        ct.is_critical = !ct.ancillary.testBit 5
        ∧ ct.is_public = !ct.priv.testBit 5
        ∧ ct.is_reserved_bit_valid = !ct.reserved.testBit 5
        ∧ ct.is_safe_to_copy = ct.safe_to_copy.testBit 5) := by
  constructor
  · exact ⟨⟨82, 117, 83, 116⟩, by decide, by decide, by decide,
      by decide, by decide⟩
  · intro ct
    refine ⟨?_, ?_, ?_, ?_⟩ <;>
      simp [ChunkType.is_critical, ChunkType.is_public,
        ChunkType.is_reserved_bit_valid, ChunkType.is_safe_to_copy,
        is_property_bit_set_eq_testBit]

/-- C10.  Container decode is total and never panics (the in-loop length
assertion and the cursor advance are always safe, and the loop's step
budget always suffices); in particular, whenever an individual chunk
decode at the cursor succeeds, the chunk's `size()` is at most the number
of bytes remaining, so advancing the cursor stays within the buffer. -/
theorem claim_c10_no_panic :
    (∀ v : List Nat, PngSpec.Png.try_from v ≠ .panicked)
    ∧ (∀ v : List Nat, ∀ c : Chunk,
        PngSpec.chunk_try_from v = .ok c → c.size ≤ v.length) :=
  ⟨png_try_from_ne_panicked,
    fun _ _ h => (pngspec_chunk_try_from_ok_inv h).2.2.2⟩

theorem claim_c10_witness :
    PngSpec.Png.try_from [1, 2, 3] ≠ .panicked
      ∧ rust_chunk.size ≤ rust_chunk.as_bytes.length :=
  ⟨claim_c10_no_panic.1 [1, 2, 3],
    claim_c10_no_panic.2 rust_chunk.as_bytes rust_chunk (by decide)⟩
